import Mathlib

/-
Verification development for the PONK-rules analysis engine.

The development shallowly embeds the core components of the repository:
the token/tree data model consumed from the parsing library, the metric
computations of document_applicables/metrics.py, the clause-extraction
utilities of document_applicables/rules/util.py, the rule base class of
document_applicables/rules/__init__.py, the plugin enumeration of
document_applicables/__init__.py and utils.py, and the server-side
default selection of server/__init__.py and server/api_helpers.py.

Conventions used throughout:
* Python dictionaries keyed by strings become association lists or
  functions to Option; a missing key is none.
* Python float arithmetic on the metric values is modelled with exact
  rationals; decimal literals of the source become the corresponding
  rationals.
* Python division raises ZeroDivisionError on a zero denominator; it is
  modelled by pyDiv, returning none exactly in that case, and fallible
  computations return Option, with none marking the raised exception.
* A udapi node is identified by its ord value (nodes of a parsed
  document carry pairwise distinct word-order positions), which stands
  in for Python object identity.
-/

/-- Token data of one udapi node: word-order position, surface form,
base form (`nlemma` embeds the source's `lemma` attribute, which is a
reserved word here), coarse and language-specific tags, morphological
features, dependency relation and the open misc bag. -/
structure NodeData where
  ord : Nat
  form : String
  nlemma : String
  upos : String
  xpos : String
  deprel : String
  feats : List (String × String)
  misc : List (String × String)
deriving DecidableEq, Repr

/-- A dependency (sub)tree: a node together with its children subtrees. -/
inductive PTree where
  | node : NodeData → List PTree → PTree

mutual

def PTree.decEq : (a b : PTree) → Decidable (a = b)
  | .node d cs, .node e ds =>
    if hd : d = e then
      match PTree.decEqList cs ds with
      | isFalse h => isFalse (by intro he; cases he; exact h rfl)
      | isTrue hl => isTrue (by rw [hd, hl])
    else isFalse (by intro he; cases he; exact hd rfl)

def PTree.decEqList : (as bs : List PTree) → Decidable (as = bs)
  | [], [] => isTrue rfl
  | [], _ :: _ => isFalse (by intro h; cases h)
  | _ :: _, [] => isFalse (by intro h; cases h)
  | a :: as, b :: bs =>
    match PTree.decEq a b with
    | isFalse h => isFalse (by intro he; cases he; exact h rfl)
    | isTrue ha =>
      match PTree.decEqList as bs with
      | isFalse h => isFalse (by intro he; cases he; exact h rfl)
      | isTrue hl => isTrue (by rw [ha, hl])
end

instance : DecidableEq PTree := PTree.decEq

/-- A document as handed to metrics: the list of its sentences, each a
list of nodes in word order (doc.bundles / doc.nodes of udapi). -/
abbrev PDoc := List (List NodeData)

def dataOf : PTree → NodeData
  | .node d _ => d

def childrenOf : PTree → List PTree
  | .node _ cs => cs

/-- udapi Node.udeprel: the part of deprel before the first colon
(deprel.split(':')[0], computed on the character list). -/
def udeprelOf (d : NodeData) : String :=
  String.mk (d.deprel.data.takeWhile (fun c => c != ':'))

/-- udapi feats access: a missing feature reads as the empty string. -/
def featsLookup (d : NodeData) (k : String) : String :=
  ((d.feats.find? (fun p => p.1 == k)).map (fun p => p.2)).getD ""

/-- Python `k in node.feats`. -/
def featsContains (d : NodeData) (k : String) : Bool :=
  d.feats.any (fun p => p.1 == k)

mutual

/-- udapi node.descendants(add_self=True): the node and every node of
its subtree (udapi sorts by ord; all properties proved below are
membership-based, so the traversal order is immaterial). -/
def descendantsSelf : PTree → List PTree
  | .node d cs => .node d cs :: descendantsSelfList cs

def descendantsSelfList : List PTree → List PTree
  | [] => []
  | t :: ts => descendantsSelf t ++ descendantsSelfList ts
end

/-- udapi node.descendants(): the subtree without the node itself. -/
def strictDescendants (t : PTree) : List PTree :=
  descendantsSelfList (childrenOf t)

/-! ## Metric helpers (document_applicables/metrics.py, class Metric) -/

/-- Python true division: raises ZeroDivisionError on a zero
denominator, modelled by none. -/
def pyDiv (a b : ℚ) : Option ℚ :=
  if b = 0 then none else some (a / b)

/-- Metric.filter_nodes_on_upos. -/
def filterNodesOnUpos (nodes : List NodeData) (values : List String)
    (negative : Bool) : List NodeData :=
  nodes.filter (fun n => (values.contains n.upos) != negative)

/-- Metric.negative_filter_nodes_on_upos. -/
def negativeFilterNodesOnUpos (nodes : List NodeData)
    (valuesToExclude : List String) : List NodeData :=
  filterNodesOnUpos nodes valuesToExclude true

/-- Metric.filter_nodes_on_punct. -/
def filterNodesOnPunct (nodes : List NodeData) : List NodeData :=
  negativeFilterNodesOnUpos nodes ["PUNCT"]

/-- Metric.get_node_texts. -/
def getNodeTexts (nodes : List NodeData) (useLemma : Bool) : List String :=
  nodes.map (fun node => if !useLemma then node.form else node.nlemma)

/-- doc.nodes: all nodes of the document, bundle by bundle. -/
def docNodes (doc : PDoc) : List NodeData :=
  doc.flatMap (fun b => b)

/-- MetricPunctExcluding.get_applicable_nodes. -/
def getApplicableNodes (filterPunct : Bool) (doc : PDoc) : List NodeData :=
  if filterPunct then filterNodesOnPunct (docNodes doc) else docNodes doc

/-- MetricSentenceCount.apply: the number of bundles. -/
def metricSentCount (doc : PDoc) : Nat :=
  doc.length

/-- MetricWordCount.apply: the number of applicable nodes. -/
def metricWordCount (filterPunct : Bool) (doc : PDoc) : Nat :=
  (getApplicableNodes filterPunct doc).length

/-- MetricCharacterCount.apply: total length of the applicable forms,
plus one per node when count_spaces is set. -/
def metricCharCount (countSpaces filterPunct : Bool) (doc : PDoc) : Nat :=
  let filteredNodes := getApplicableNodes filterPunct doc
  (filteredNodes.map (fun n => n.form.length)).sum +
    (if countSpaces then filteredNodes.length else 0)

/-! ## MetricMovingAverageTypeTokenRatio (metrics.py lines 269-308)

The apply method also writes a per-token visualization annotation into
each applicable node's misc bag (add_to_annotation_list /
calc_avg_value); those writes never reach the returned score, which
depends only on big_sum and the word count, and the frame behaviour of
misc writes is verified separately on annotateByOrd below. -/

/-- Configuration fields of MetricMovingAverageTypeTokenRatio with the
declared defaults. -/
structure MattrCfg where
  useLemma : Bool := true
  filterPunct : Bool := true
  windowSize : Nat := 100

/-- The filtered, ordered token sequence the metric slides over. -/
def mattrTokens (cfg : MattrCfg) (doc : PDoc) : List String :=
  getNodeTexts (getApplicableNodes cfg.filterPunct doc) cfg.useLemma

/-- MetricMovingAverageTypeTokenRatio.apply, returned score only.
`List.range (totalWords + 1 - windowSize)` (truncated subtraction)
coincides with Python's `range(int(total_words) - window_size + 1)`,
empty exactly when totalWords < windowSize.  The final division is the
source's `big_sum / (window_size * (total_words - window_size + 1))`
with the parenthesised factor evaluated over the integers, so it is
negative (not zero) when totalWords < windowSize - 1. -/
def mattrApply (cfg : MattrCfg) (doc : PDoc) : Option ℚ :=
  let totalWords := metricWordCount cfg.filterPunct doc
  let filteredTexts := mattrTokens cfg doc
  let bigSum := ((List.range (totalWords + 1 - cfg.windowSize)).map
    (fun i => ((filteredTexts.drop i).take cfg.windowSize).dedup.length)).sum
  pyDiv (bigSum : ℚ)
    ((cfg.windowSize : ℚ) * ((totalWords : ℚ) - (cfg.windowSize : ℚ) + 1))

/-- Modelled from the spec (§4.6): u(i), the count of distinct token
values in tokens[i..i+W). -/
def windowDistinctCount (tokens : List String) (i W : Nat) : Nat :=
  ((tokens.drop i).take W).dedup.length

/-- Modelled from the spec (§4.6): aggregate score
sum(u(i)) / (W * (N - W + 1)) with i ranging over [0, N-W]. -/
def mattrSpecScore (tokens : List String) (W : Nat) : ℚ :=
  (((List.range (tokens.length - W + 1)).map
      (fun i => (windowDistinctCount tokens i W : ℚ))).sum) /
    ((W : ℚ) * ((tokens.length : ℚ) - (W : ℚ) + 1))

/-! ## MetricCLI (metrics.py lines 111-133) -/

/-- Configuration fields of MetricCLI with the declared defaults (the
decimal float literals of the source become exact rationals). -/
structure CLICfg where
  filterPunct : Bool := true
  countSpaces : Bool := false
  coef1 : ℚ := 47 / 1000
  coef2 : ℚ := 286 / 1000
  const1 : ℚ := 129 / 10

/-- MetricCLI.apply:
(coef_1 * (chars / words) * 100) - (coef_2 * (sents / words) * 100) - const_1,
with both divisions by the word count performed unguarded. -/
def metricCLIApply (cfg : CLICfg) (doc : PDoc) : Option ℚ :=
  let sents := metricSentCount doc
  let words := metricWordCount cfg.filterPunct doc
  let chars := metricCharCount cfg.countSpaces cfg.filterPunct doc
  match pyDiv (chars : ℚ) (words : ℚ), pyDiv (sents : ℚ) (words : ℚ) with
  | some q1, some q2 => some (cfg.coef1 * q1 * 100 - cfg.coef2 * q2 * 100 - cfg.const1)
  | _, _ => none

/-- A minimal non-punctuation node used by the concrete instances. -/
def sampleNode (o : Nat) (text : String) : NodeData :=
  { ord := o, form := text, nlemma := text, upos := "NOUN", xpos := "NN",
    deprel := "dep", feats := [], misc := [] }

/-- The [A,A,B,B] one-sentence document of the MATTR example. -/
def mattrExampleDoc : PDoc :=
  [[sampleNode 1 "A", sampleNode 2 "A", sampleNode 3 "B", sampleNode 4 "B"]]

/-! ## Rule instance state (document_applicables/rules/__init__.py, class Rule)

The Rule fields that the claims touch: process_id (the current
application id, a fresh random token drawn from os.urandom(4).hex()),
application_count, average_measured_values and measured_values.  The
random draws of get_application_id are modelled as explicit oracle
inputs: every operation that draws a token receives it as an argument. -/

structure RuleState where
  processId : String
  applicationCount : Nat
  averageMeasuredValues : String → Option ℚ
  measuredValues : String → Option (List ℚ)

/-- The state of a freshly constructed Rule (model_post_init draws the
first process_id token). -/
def freshRuleState (firstId : String) : RuleState :=
  { processId := firstId
    applicationCount := 0
    averageMeasuredValues := fun _ => none
    measuredValues := fun _ => none }

/-- Rule.do_measurement_calculations: incremental mean against the
application counter ((avg or 0) * count + v) / (count + 1), and append
to the sample history. -/
def doMeasurementCalculations (s : RuleState) (mName : String) (mValue : ℚ) :
    RuleState :=
  { s with
    averageMeasuredValues := fun n =>
      if n = mName then
        some ((((s.averageMeasuredValues mName).getD 0) * s.applicationCount
          + mValue) / (s.applicationCount + 1))
      else s.averageMeasuredValues n
    measuredValues := fun n =>
      if n = mName then some (((s.measuredValues mName).getD []) ++ [mValue])
      else s.measuredValues n }

/-- Rule.advance_application_id: replace process_id by a fresh random
token (the oracle argument) and bump the application counter. -/
def advanceApplicationId (s : RuleState) (fresh : String) : RuleState :=
  { s with processId := fresh, applicationCount := s.applicationCount + 1 }

/-- Rule.reset_application_count. -/
def resetApplicationCount (s : RuleState) : RuleState :=
  { s with applicationCount := 0
           averageMeasuredValues := fun _ => none
           measuredValues := fun _ => none }

/-- One recorded-history operation on a rule instance, as far as the
measurement aggregator is concerned: a do_measurement_calculations
call, or an advance_application_id call (with its random draw). -/
inductive ROp where
  | record (name : String) (v : ℚ)
  | advance (fresh : String)

def execOps (s : RuleState) : List ROp → RuleState
  | [] => s
  | ROp.record n v :: rest => execOps (doMeasurementCalculations s n v) rest
  | ROp.advance f :: rest => execOps (advanceApplicationId s f) rest

/-- The values recorded under a given measurement name, in order. -/
def recordedValues (name : String) : List ROp → List ℚ
  | [] => []
  | ROp.record n v :: rest =>
    (if n = name then [v] else []) ++ recordedValues name rest
  | ROp.advance _ :: rest => recordedValues name rest

/-- The synchronization discipline under which the incremental formula
is exact: whenever a value is recorded under `name`, the application
counter (tracked from `c`) equals the number of values previously
recorded under `name` (tracked from `k`). -/
def syncedRun (name : String) : Nat → Nat → List ROp → Bool
  | _, _, [] => true
  | c, k, ROp.record n _ :: rest =>
    (!(n == name) || (c == k)) && syncedRun name c (if n == name then k + 1 else k) rest
  | c, k, ROp.advance _ :: rest => syncedRun name (c + 1) k rest

/-! ## Annotation keys (rules/__init__.py, RULE_ANNOTATION_PREFIX and
Rule.annotate_node) -/

/-- RULE_ANNOTATION_PREFIX. -/
def ruleAnnotPrefixVal : String := "PonkApp1"

/-- The key built by Rule.annotate_node:
prefix:rule_id:process_id with an optional :flag tail. -/
def ruleKey (ruleId processId : String) (flag : Option String) : String :=
  match flag with
  | some f => ruleAnnotPrefixVal ++ ":" ++ ruleId ++ ":" ++ processId ++ ":" ++ f
  | none => ruleAnnotPrefixVal ++ ":" ++ ruleId ++ ":" ++ processId

/-! ## Plugin enumeration (document_applicables/__init__.py
Documentable.get_final_children and utils.py
StringBuildable.get_final_children)

A registered subclass hierarchy is a forest of class trees: each tree
is a class name together with the trees of its registered subclasses
(Python classes are singly inherited here, so the hierarchy is a
forest and no class occurs twice). -/

inductive ClassTree where
  | node : String → List ClassTree → ClassTree

mutual

def ClassTree.decEq : (a b : ClassTree) → Decidable (a = b)
  | .node d cs, .node e ds =>
    if hd : d = e then
      match ClassTree.decEqList cs ds with
      | isFalse h => isFalse (by intro he; cases he; exact h rfl)
      | isTrue hl => isTrue (by rw [hd, hl])
    else isFalse (by intro he; cases he; exact hd rfl)

def ClassTree.decEqList : (as bs : List ClassTree) → Decidable (as = bs)
  | [], [] => isTrue rfl
  | [], _ :: _ => isFalse (by intro h; cases h)
  | _ :: _, [] => isFalse (by intro h; cases h)
  | a :: as, b :: bs =>
    match ClassTree.decEq a b with
    | isFalse h => isFalse (by intro he; cases he; exact h rfl)
    | isTrue ha =>
      match ClassTree.decEqList as bs with
      | isFalse h => isFalse (by intro he; cases he; exact h rfl)
      | isTrue hl => isTrue (by rw [ha, hl])
end

instance : DecidableEq ClassTree := ClassTree.decEq

/-- cls.__name__. -/
def classNameOf : ClassTree → String
  | .node n _ => n

/-- cls.__subclasses__(). -/
def subclassesOf : ClassTree → List ClassTree
  | .node _ cs => cs

mutual

def classTreeSize : ClassTree → Nat
  | .node _ cs => 1 + classTreeListSize cs

def classTreeListSize : List ClassTree → Nat
  | [] => 0
  | t :: ts => classTreeSize t + classTreeListSize ts
end

/-- Documentable.get_final_children: Python iterates over the children
list while appending the subclasses of every non-leaf it meets
(appended elements are visited later in the same loop), and collects
the leaves in visit order.  The growing list with its visit index is a
work queue: visiting `node n cs :: rest` either emits the leaf or
enqueues cs behind rest. -/
def getFinalChildrenDoc : List ClassTree → List ClassTree
  | [] => []
  | .node n cs :: rest =>
    if cs.isEmpty then .node n cs :: getFinalChildrenDoc rest
    else getFinalChildrenDoc (rest ++ cs)
termination_by l => classTreeListSize l
decreasing_by
  · simp only [classTreeListSize, classTreeSize]
    omega
  · have happ : ∀ a b : List ClassTree,
        classTreeListSize (a ++ b) = classTreeListSize a + classTreeListSize b := by
      intro a b
      induction a with
      | nil => simp [classTreeListSize]
      | cons t ts ih => simp [classTreeListSize, ih, Nat.add_assoc]
    simp only [classTreeListSize, classTreeSize, happ]
    omega

mutual

/-- The terminal (childless) classes of a class tree, in depth-first
order. -/
def leafClasses : ClassTree → List ClassTree
  | .node n cs => if cs.isEmpty then [.node n cs] else leafClassesList cs

def leafClassesList : List ClassTree → List ClassTree
  | [] => []
  | t :: ts => leafClasses t ++ leafClassesList ts
end

/-- StringBuildable.get_final_children: Python iterates the children
list by an index that advances every step, removing the current
non-leaf in place (which shifts the next element into the current slot,
so it is skipped) and appending its subclasses at the end.  `fuel`
bounds the number of loop steps; classTreeListSize l + 1 steps always
suffice because every list element is a distinct subtree of the
original forest. -/
def sbLoop (fuel : Nat) (i : Nat) (l : List ClassTree) : List ClassTree :=
  match fuel with
  | 0 => l
  | f + 1 =>
    match l.get? i with
    | none => l
    | some t =>
      if (subclassesOf t).isEmpty then sbLoop f (i + 1) l
      else sbLoop f (i + 1) (l.erase t ++ subclassesOf t)

def getFinalChildrenSB (l : List ClassTree) : List ClassTree :=
  sbLoop (classTreeListSize l + 1) 0 l

/-! ## Clause extraction (document_applicables/rules/util.py) -/

/-- util.is_aux. -/
def isAux (d : NodeData) (grammaticalOnly : Bool) : Bool :=
  if grammaticalOnly then
    (udeprelOf d == "aux" || udeprelOf d == "cop") || d.deprel == "expl:pass"
  else
    udeprelOf d == "aux" || udeprelOf d == "expl" || udeprelOf d == "cop"

/-- util.is_finite_verb: VerbForm=Fin in the features, or an xpos
starting with Vp. -/
def isFiniteVerb (d : NodeData) : Bool :=
  (featsContains d "VerbForm" && featsLookup d "VerbForm" == "Fin")
    || (String.mk (d.xpos.data.take 2) == "Vp")

/-- util.is_clause_root: a finite verb, or a node with at least one
purely grammatical auxiliary/copula child. -/
def isClauseRoot (t : PTree) : Bool :=
  isFiniteVerb (dataOf t)
    || (childrenOf t).any (fun nd => isAux (dataOf nd) true)

/-- util.get_clause_root: walk upward along parent edges until a
clause root is found.  The node's ancestor chain (parent first, the
technical root of the udapi tree last) is passed explicitly; the
technical root's parent is None, so exhausting the chain means the
Python loop calls is_clause_root(None) and dies with an
AttributeError, modelled as none. -/
def getClauseRootChain : PTree → List PTree → Option PTree
  | t, [] => if isClauseRoot t then some t else none
  | t, p :: rest => if isClauseRoot t then some t else getClauseRootChain p rest

/-- util.get_clause for an already-determined clause root: take the
root's subtree, optionally prune every nested clause root with its
whole subtree, optionally drop punctuation. -/
def getClauseFromRoot (withoutSubordinates withoutPunctuation : Bool)
    (clauseRoot : PTree) : List PTree :=
  let clause := descendantsSelf clauseRoot
  let clause :=
    if withoutSubordinates then
      let toRemove := (clause.filter
        (fun nd => nd ≠ clauseRoot ∧ isClauseRoot nd = true)).flatMap
          descendantsSelf
      clause.filter (fun nd => nd ∉ toRemove)
    else clause
  if withoutPunctuation then
    clause.filter (fun nd => (dataOf nd).upos ≠ "PUNCT")
  else clause

/-- util.get_clause: resolve the clause root (the node itself under
node_is_root=True, otherwise the upward walk) and prune its subtree. -/
def getClause (withoutSubordinates withoutPunctuation nodeIsRoot : Bool)
    (t : PTree) (ancestors : List PTree) : Option (List PTree) :=
  match (if nodeIsRoot then some t else getClauseRootChain t ancestors) with
  | none => none
  | some r => some (getClauseFromRoot withoutSubordinates withoutPunctuation r)

mutual

def ptreeSize : PTree → Nat
  | .node _ cs => 1 + ptreeListSize cs

def ptreeListSize : List PTree → Nat
  | [] => 0
  | t :: ts => ptreeSize t + ptreeListSize ts
end

/-! Concrete clause-extraction scenario: a clause root with two
children, one of which is a nested clause root (finite verb) with two
further descendants - five nodes in total. -/

def scenarioGrand1 : PTree :=
  .node { ord := 4, form := "slovo", nlemma := "slovo", upos := "NOUN",
          xpos := "NN", deprel := "obj", feats := [], misc := [] } []

def scenarioGrand2 : PTree :=
  .node { ord := 5, form := "dnes", nlemma := "dnes", upos := "ADV",
          xpos := "Db", deprel := "advmod", feats := [], misc := [] } []

def scenarioNested : PTree :=
  .node { ord := 3, form := "rekl", nlemma := "rici", upos := "VERB",
          xpos := "VB", deprel := "advcl",
          feats := [("VerbForm", "Fin")], misc := [] }
    [scenarioGrand1, scenarioGrand2]

def scenarioChild1 : PTree :=
  .node { ord := 2, form := "on", nlemma := "on", upos := "PRON",
          xpos := "PP", deprel := "nsubj", feats := [], misc := [] } []

def scenarioRoot : PTree :=
  .node { ord := 1, form := "vi", nlemma := "vedet", upos := "VERB",
          xpos := "VB", deprel := "root",
          feats := [("VerbForm", "Fin")], misc := [] }
    [scenarioChild1, scenarioNested]

/-- A sentence consisting of a lone punctuation token: its root has
upos PUNCT. -/
def punctOnlyRoot : PTree :=
  .node { ord := 1, form := ".", nlemma := ".", upos := "PUNCT",
          xpos := "Z:-------------", deprel := "root", feats := [],
          misc := [] } []

/-- The technical root of a udapi tree: it carries no VerbForm
feature, its xpos does not start with Vp, and its single child is the
sentence's top word with deprel root - the only facts the predicates
consult. -/
def techRootNode (topWord : PTree) : PTree :=
  .node { ord := 0, form := "", nlemma := "", upos := "", xpos := "",
          deprel := "", feats := [], misc := [] } [topWord]

/-- A verbless sentence: an interjection root with a punctuation
child. -/
def intjNode : PTree :=
  .node { ord := 1, form := "Ahoj", nlemma := "ahoj", upos := "INTJ",
          xpos := "II-------------", deprel := "root", feats := [],
          misc := [] } [punctOnlyRoot]

/-! ## Server-side default selection (server/__init__.py
unwrap_metric_list / compute_metrics, server/api_helpers.py
unwrap_metric_list)

A configured metric instance is modelled by its discriminator id (the
default instantiation `metric()` of an enumerated class); the external
apply evaluation is a parameter.  The two server modules resolve
Metric.get_final_children differently: server/api_helpers.py imports
Metric from document_applicables.metrics, whose base is Documentable
(the work-queue enumeration getFinalChildrenDoc), while
server/__init__.py imports Metric and Rule from the top-level metrics
and rules modules, whose base is StringBuildable (the
remove-while-iterating enumeration getFinalChildrenSB). -/

/-- server/api_helpers.py unwrap_metric_list: None (absent) falls back
to one default instance of every class enumerated by the Documentable
get_final_children; an explicit list is unwrapped as-is. -/
def unwrapMetricList (registry : List ClassTree)
    (wrapped : Option (List String)) : List String :=
  match wrapped with
  | none => (getFinalChildrenDoc registry).map classNameOf
  | some l => l

/-- server/__init__.py compute_metrics: a None metric list falls back
to one default instance per class enumerated by
Metric.get_final_children - in this module the StringBuildable
version - and every instance in the resulting list is applied to the
document (apply_rules in the same file follows the identical shape
with Rule). -/
def computeMetricsSrv (registry : List ClassTree) (applyFn : String → ℚ)
    (metricList : Option (List String)) : List (String × ℚ) :=
  let l := match metricList with
    | none => (getFinalChildrenSB registry).map classNameOf
    | some l' => l'
  l.map (fun m => (m, applyFn m))

/-! ## RuleTooFewVerbs (rules/__init__.py lines 421-471)

The embedding covers process_node at a tree root (the rule only acts
on nodes with udeprel root).  Result: none models an uncaught
exception (an unguarded division), some none a return without a
finding, some (some (verbs, frac)) a finding with the annotated verb
nodes and the measured fraction. -/

structure TooFewVerbsCfg where
  minVerbFrac : ℚ := 6 / 100
  finiteOnly : Bool := false

/-- RuleTooFewVerbs.is_verb. -/
def tfvIsVerb (cfg : TooFewVerbsCfg) (d : NodeData) : Bool :=
  if cfg.finiteOnly then isFiniteVerb d
  else (d.upos == "VERB" || d.upos == "AUX")

mutual

/-- The parent of a node within a tree (Python's node.parent, resolved
against the processed subtree; none for the subtree root itself, whose
parent is outside). -/
def parentIn : PTree → PTree → Option PTree
  | .node d cs, x =>
    if cs.contains x then some (.node d cs) else parentInList cs x

def parentInList : List PTree → PTree → Option PTree
  | [], _ => none
  | c :: cs, x =>
    match parentIn c x with
    | some p => some p
    | none => parentInList cs x
end

/-- udapi node.descendants(preceding_only=True): the strict descendants
preceding the node in word order. -/
def precedingDescendants (p : PTree) : List PTree :=
  (strictDescendants p).filter (fun x => (dataOf x).ord < (dataOf p).ord)

/-- RuleTooFewVerbs.process_node: on a root node, take the clause
without punctuation, bail out on an empty result, collect the verbs
counting each lexeme once (a grammatical auxiliary is skipped when its
parent is a verb or an earlier auxiliary of the same parent precedes
it), and flag the sentence when verbs/words falls below the threshold.
The parentIn t nd = none branch is unreachable for auxiliaries (the
subtree root has udeprel root, never aux/cop/expl:pass); Python would
evaluate is_verb on the technical root there, which is no verb, so the
branch yields false either way. -/
def ruleTooFewVerbsApply (cfg : TooFewVerbsCfg) (t : PTree) :
    Option (Option (List PTree × ℚ)) :=
  if udeprelOf (dataOf t) == "root" then
    let sentence := getClauseFromRoot false true t
    if sentence.isEmpty then some none
    else
      let verbs := sentence.filter (fun nd =>
        tfvIsVerb cfg (dataOf nd)
        && !(isAux (dataOf nd) true
          && (match parentIn t nd with
              | some p => tfvIsVerb cfg (dataOf p)
                || !((precedingDescendants p).filter
                    (fun pr => pr != nd && isAux (dataOf pr) true)).isEmpty
              | none => false)))
      match pyDiv (verbs.length : ℚ) (sentence.length : ℚ) with
      | none => none
      | some minFrac =>
        if minFrac < cfg.minVerbFrac then some (some (verbs, minFrac))
        else some none
  else some none

/-! ## Annotation writes and the detect_only frame property
(document_applicables/__init__.py Documentable.annotate_node,
rules/__init__.py RuleDoubleAdpos.process_node)

Rules annotate nodes by assigning into their open misc bags.  Target
nodes are addressed by their ord (the stand-in for Python object
identity).  RuleDoubleAdpos is the one rule with a transformation
branch; under detect_only=True (the default) that branch is skipped,
and the embedding below covers exactly the detect_only=True path. -/

/-- Python dict assignment misc[key] = value. -/
def miscSet (m : List (String × String)) (k v : String) :
    List (String × String) :=
  if m.any (fun p => p.1 == k) then
    m.map (fun p => if p.1 == k then (k, v) else p)
  else m ++ [(k, v)]

mutual

/-- Documentable.annotate_node over a document tree: write
misc[key] = value on every node whose ord is among the targets. -/
def annotateByOrd (key val : String) (ords : List Nat) : PTree → PTree
  | .node d cs =>
    .node (if ords.contains d.ord then { d with misc := miscSet d.misc key val }
           else d)
      (annotateByOrdList key val ords cs)

def annotateByOrdList (key val : String) (ords : List Nat) :
    List PTree → List PTree
  | [] => []
  | t :: ts => annotateByOrd key val ords t :: annotateByOrdList key val ords ts
end

mutual

/-- The document with every misc bag emptied: the footprint a
detect-only rule may not change. -/
def eraseMisc : PTree → PTree
  | .node d cs => .node { d with misc := [] } (eraseMiscList cs)

def eraseMiscList : List PTree → List PTree
  | [] => []
  | t :: ts => eraseMisc t :: eraseMiscList ts
end

/-- RuleDoubleAdpos parameters (detect_only = True path). -/
structure DoubleAdposCfg where
  maxAllowableDistance : Int := 4

/-- RuleDoubleAdpos.id(): the class name. -/
def daRuleId : String := "RuleDoubleAdpos"

/-- The next os.urandom draw from the oracle supply. -/
def drawFresh : List String → String × List String
  | [] => ("", [])
  | f :: rest => (f, rest)

/-- One iteration of the parent_adpos loop of
RuleDoubleAdpos.process_node under detect_only=True: check case
agreement, distance, and the absence of an adposition on the second
conjunct; then annotate the coordinating conjunction (when present)
with the measured distance and the parameter value, annotate the
original adposition and both conjuncts, and advance the application
id.  State: (document tree, rule state, random-draw oracle). -/
def daCandidate (cfg : DoubleAdposCfg) (el2 el1 pa : PTree)
    (st : PTree × RuleState × List String) :
    PTree × RuleState × List String :=
  let doc := st.1
  let rs := st.2.1
  let ids := st.2.2
  if featsLookup (dataOf el2) "Case" != featsLookup (dataOf el1) "Case" then st
  else if ((dataOf el2).ord : Int) - ((dataOf el1).ord : Int)
      ≤ cfg.maxAllowableDistance then st
  else if !((childrenOf el2).filter
        (fun c => (dataOf c).nlemma == (dataOf pa).nlemma)).isEmpty
      || !((childrenOf el2).filter (fun c => (dataOf c).upos == "ADP")).isEmpty
    then st
  else
    let dst : Int := ((dataOf el2).ord : Int) - ((dataOf el1).ord : Int)
    let cconj := ((childrenOf el2).filter (fun c =>
        ((dataOf c).deprel == "cc" || (dataOf c).deprel == "punct")
          && (dataOf c).nlemma != ".")).getLast?
    let docRs :=
      match cconj with
      | some cc =>
        let doc := annotateByOrd (ruleKey daRuleId rs.processId none) "cconj"
          [(dataOf cc).ord] doc
        let doc := annotateByOrd
          (ruleKey daRuleId rs.processId (some "measur:max_allowable_distance"))
          (toString dst)
          [(dataOf cc).ord, (dataOf pa).ord, (dataOf el1).ord, (dataOf el2).ord]
          doc
        let rs := doMeasurementCalculations rs "max_allowable_distance" (dst : ℚ)
        let doc := annotateByOrd
          (ruleKey daRuleId rs.processId (some "param:max_allowable_distance"))
          (toString cfg.maxAllowableDistance)
          [(dataOf cc).ord, (dataOf pa).ord, (dataOf el1).ord, (dataOf el2).ord]
          doc
        (doc, rs)
      | none => (doc, rs)
    let doc := annotateByOrd (ruleKey daRuleId docRs.2.processId none) "orig_adpos"
      [(dataOf pa).ord] docRs.1
    let doc := annotateByOrd (ruleKey daRuleId docRs.2.processId none) "coord_el1"
      [(dataOf el1).ord] doc
    let doc := annotateByOrd (ruleKey daRuleId docRs.2.processId none) "coord_el2"
      [(dataOf el2).ord] doc
    let fid := drawFresh ids
    (doc, advanceApplicationId docRs.2 fid.1, fid.2)

/-- RuleDoubleAdpos.process_node under detect_only=True: bail out
unless the node is a conj with a grandparent; otherwise run the
candidate loop over the adposition siblings. -/
def daProcessNode (cfg : DoubleAdposCfg) (doc nd : PTree)
    (rs : RuleState) (ids : List String) : PTree × RuleState × List String :=
  if (dataOf nd).deprel != "conj" then (doc, rs, ids)
  else
    match parentIn doc nd with
    | none => (doc, rs, ids)
    | some p =>
      match parentIn doc p with
      | none => (doc, rs, ids)
      | some _ =>
        let candidates := ((childrenOf p).filter (fun s => s != nd)).filter
          (fun s => udeprelOf (dataOf s) == "case" && (dataOf s).upos == "ADP")
        candidates.foldl (fun st pa => daCandidate cfg nd p pa st) (doc, rs, ids)

/-! ## Helper lemmas for the MATTR theorems -/

theorem mattrTokens_length (cfg : MattrCfg) (doc : PDoc) :
    (mattrTokens cfg doc).length = metricWordCount cfg.filterPunct doc := by
  simp [mattrTokens, getNodeTexts, metricWordCount]

theorem dedup_length_one_of_const {α : Type} [DecidableEq α]
    (a : α) : ∀ l : List α, l ≠ [] → (∀ x ∈ l, x = a) → l.dedup.length = 1 := by
  intro l
  induction l with
  | nil => intro h; exact absurd rfl h
  | cons x xs ih =>
    intro _ hall
    have hx : x = a := hall x (List.mem_cons_self x xs)
    subst hx
    match xs, ih with
    | [], _ => simp
    | y :: ys, ih =>
      have hy : y = x := hall y (by simp)
      have hmem : x ∈ y :: ys := by rw [hy]; exact List.mem_cons_self x ys
      rw [List.dedup_cons_of_mem hmem]
      exact ih (by simp) (fun z hz => hall z (List.mem_cons_of_mem x hz))

theorem window_length_eq (tokens : List String) (i W : Nat)
    (h : i + W ≤ tokens.length) :
    ((tokens.drop i).take W).length = W := by
  simp only [List.length_take, List.length_drop]
  omega

/-- C1: for a filtered token sequence of length N >= W (window size
W >= 1), MetricMovingAverageTypeTokenRatio.apply returns
sum(u(i)) / (W * (N - W + 1)) where u(i) counts the distinct token
values of the window starting at i; consequently the score is 1 when
every window is all-distinct and 1/W when all tokens coincide. -/
theorem mattr_apply_matches_spec (cfg : MattrCfg) (doc : PDoc) (a : String)
    (hW : 1 ≤ cfg.windowSize)
    (hN : cfg.windowSize ≤ (mattrTokens cfg doc).length) :
    mattrApply cfg doc = some (mattrSpecScore (mattrTokens cfg doc) cfg.windowSize)
    ∧ ((∀ i < (mattrTokens cfg doc).length - cfg.windowSize + 1,
          (((mattrTokens cfg doc).drop i).take cfg.windowSize).Nodup) →
        mattrApply cfg doc = some 1)
    ∧ ((∀ x ∈ mattrTokens cfg doc, x = a) →
        mattrApply cfg doc = some (1 / (cfg.windowSize : ℚ))) := by
  set W := cfg.windowSize with hWdef
  set T := mattrTokens cfg doc with hTdef
  set N := T.length with hNdef
  have hNw : metricWordCount cfg.filterPunct doc = N := mattrTokens_length cfg doc ▸ rfl
  have hrange : N + 1 - W = N - W + 1 := by omega
  have hcastWN : (W : ℚ) ≤ (N : ℚ) := Nat.cast_le.mpr hN
  have hWpos : (0 : ℚ) < (W : ℚ) := by exact_mod_cast hW
  have hfac : (0 : ℚ) < (N : ℚ) - (W : ℚ) + 1 := by linarith
  have hden : (W : ℚ) * ((N : ℚ) - (W : ℚ) + 1) ≠ 0 := ne_of_gt (mul_pos hWpos hfac)
  have hcastsub : ((N - W + 1 : ℕ) : ℚ) = (N : ℚ) - (W : ℚ) + 1 := by
    push_cast [Nat.cast_sub hN]
    ring
  have hmain : mattrApply cfg doc
      = some (mattrSpecScore T W) := by
    simp only [mattrApply, pyDiv, hNw, hrange, mattrSpecScore, windowDistinctCount, ← hTdef,
      ← hNdef, ← hWdef]
    rw [if_neg hden]
    congr 1
    rw [Nat.cast_list_sum, List.map_map]
    rfl
  refine ⟨hmain, ?_, ?_⟩
  · intro hnd
    rw [hmain]
    congr 1
    have hcount : ∀ x ∈ (List.range (N - W + 1)).map
        (fun i => (windowDistinctCount T i W : ℚ)), x = (W : ℚ) := by
      intro x hx
      rcases List.mem_map.mp hx with ⟨i, hi, hxe⟩
      have hilt : i < N - W + 1 := List.mem_range.mp hi
      have hnodup : ((T.drop i).take W).Nodup := hnd i hilt
      have hlen : ((T.drop i).take W).length = W :=
        window_length_eq T i W (by omega)
      rw [← hxe]
      simp [windowDistinctCount, hnodup.dedup, hlen]
    rw [mattrSpecScore]
    rw [List.sum_eq_card_nsmul _ _ hcount]
    simp only [List.length_map, List.length_range, nsmul_eq_mul]
    rw [hcastsub]
    rw [mul_comm ((N : ℚ) - (W : ℚ) + 1) ((W : ℚ))]
    exact div_self hden
  · intro hconst
    rw [hmain]
    congr 1
    have hcount : ∀ x ∈ (List.range (N - W + 1)).map
        (fun i => (windowDistinctCount T i W : ℚ)), x = (1 : ℚ) := by
      intro x hx
      rcases List.mem_map.mp hx with ⟨i, hi, hxe⟩
      have hilt : i < N - W + 1 := List.mem_range.mp hi
      have hlen : ((T.drop i).take W).length = W :=
        window_length_eq T i W (by omega)
      have hne : (T.drop i).take W ≠ [] := by
        intro hemp
        rw [hemp] at hlen
        simp at hlen
        omega
      have hallw : ∀ y ∈ (T.drop i).take W, y = a := by
        intro y hy
        exact hconst y (List.mem_of_mem_drop (List.mem_of_mem_take hy))
      have h1 : ((T.drop i).take W).dedup.length = 1 :=
        dedup_length_one_of_const a _ hne hallw
      rw [← hxe]
      simp [windowDistinctCount, h1]
    rw [mattrSpecScore]
    rw [List.sum_eq_card_nsmul _ _ hcount]
    simp only [List.length_map, List.length_range, nsmul_eq_mul, mul_one]
    rw [hcastsub]
    rw [mul_comm ((W : ℚ)) ((N : ℚ) - (W : ℚ) + 1)]
    rw [div_mul_eq_div_div]
    rw [div_self (ne_of_gt hfac)]

/-- C1 witness: on the [A,A,B,B] document with window 2 the hypotheses
of mattr_apply_matches_spec hold and the score is (1+2+1)/(2*3) = 2/3. -/
theorem mattr_apply_matches_spec_witness :
    1 ≤ (2 : Nat)
    ∧ 2 ≤ (mattrTokens { windowSize := 2 } mattrExampleDoc).length
    ∧ mattrApply { windowSize := 2 } mattrExampleDoc = some (2 / 3) := by
  refine ⟨by decide, by decide, ?_⟩
  rw [(mattr_apply_matches_spec { windowSize := 2 } mattrExampleDoc "A"
    (by decide) (by decide)).1]
  have hT : mattrTokens { windowSize := 2 } mattrExampleDoc
      = ["A", "A", "B", "B"] := by decide
  rw [hT]
  have h0 : windowDistinctCount ["A", "A", "B", "B"] 0 2 = 1 := by decide
  have h1 : windowDistinctCount ["A", "A", "B", "B"] 1 2 = 2 := by decide
  have h2 : windowDistinctCount ["A", "A", "B", "B"] 2 2 = 1 := by decide
  have hr : List.range ((["A", "A", "B", "B"] : List String).length - 2 + 1)
      = [0, 1, 2] := by decide
  rw [mattrSpecScore, hr]
  simp only [List.map, h0, h1, h2]
  norm_num

/-- C2: for inputs below the window size, apply does not raise any
validation error: with window 2 it silently returns 0.0 on an empty
token sequence (big_sum 0, denominator -2), and on a one-token sequence
it evaluates the formula with denominator 0 and dies with an unhandled
ZeroDivisionError (modelled as none). -/
theorem mattr_below_window_silently_evaluates :
    mattrApply { windowSize := 2 } ([] : PDoc) = some 0
    ∧ mattrApply { windowSize := 2 } [[sampleNode 1 "A"]] = none := by
  constructor
  · have h : metricWordCount true ([] : PDoc) = 0 := by decide
    simp only [mattrApply, h, mattrTokens, pyDiv]
    norm_num [getApplicableNodes, docNodes, filterNodesOnPunct,
      negativeFilterNodesOnUpos, filterNodesOnUpos, getNodeTexts]
  · have h : metricWordCount true [[sampleNode 1 "A"]] = 1 := by decide
    simp only [mattrApply, h, pyDiv]
    norm_num

theorem execOps_measurement_inv (name : String) :
    ∀ (ops : List ROp) (s : RuleState),
    syncedRun name s.applicationCount
      ((s.measuredValues name).getD []).length ops = true →
    ((s.averageMeasuredValues name).getD 0)
      = ((s.measuredValues name).getD []).sum
        / (((s.measuredValues name).getD []).length : ℚ) →
    ((execOps s ops).measuredValues name).getD []
      = ((s.measuredValues name).getD []) ++ recordedValues name ops
    ∧ ((execOps s ops).averageMeasuredValues name).getD 0
      = (((s.measuredValues name).getD []) ++ recordedValues name ops).sum
        / ((((s.measuredValues name).getD []) ++ recordedValues name ops).length : ℚ) := by
  intro ops
  induction ops with
  | nil =>
    intro s _ havg
    simp [execOps, recordedValues, havg]
  | cons op rest ih =>
    intro s hsync havg
    cases op with
    | record n v =>
      by_cases hn : n = name
      · subst hn
        simp only [syncedRun, beq_self_eq_true, Bool.not_true, Bool.false_or,
          Bool.and_eq_true, beq_iff_eq, if_pos] at hsync
        obtain ⟨hck, hrest⟩ := hsync
        have hmv : ((doMeasurementCalculations s n v).measuredValues n).getD []
            = (s.measuredValues n).getD [] ++ [v] := by
          simp [doMeasurementCalculations]
        have hcount : (doMeasurementCalculations s n v).applicationCount
            = s.applicationCount := rfl
        have hav : ((doMeasurementCalculations s n v).averageMeasuredValues n).getD 0
            = ((s.measuredValues n).getD [] ++ [v]).sum
              / ((((s.measuredValues n).getD [] ++ [v]).length : ℚ)) := by
          simp only [doMeasurementCalculations, eq_self_iff_true, if_true,
            Option.getD_some]
          rw [havg]
          have hcast : ((s.applicationCount : ℚ))
              = ((((s.measuredValues n).getD []).length : ℚ)) := by
            exact_mod_cast hck
          rw [hcast]
          rcases Nat.eq_zero_or_pos ((s.measuredValues n).getD []).length with hzero | hpos
          · have h0 : (s.measuredValues n).getD [] = [] := List.length_eq_zero.mp hzero
            rw [h0]
            simp
          · have hne : ((((s.measuredValues n).getD []).length : ℚ)) ≠ 0 := by
              exact_mod_cast Nat.pos_iff_ne_zero.mp hpos
            rw [div_mul_cancel₀ _ hne]
            simp only [List.sum_append, List.length_append, List.sum_cons,
              List.sum_nil, List.length_cons, List.length_nil, add_zero, zero_add]
            push_cast
            ring
        have hres := ih (doMeasurementCalculations s n v)
          (by rw [hcount, hmv, List.length_append]; simpa using hrest)
          (by rw [hmv]; exact hav)
        rw [hmv] at hres
        simp only [execOps, recordedValues, if_pos rfl]
        refine ⟨?_, ?_⟩
        · rw [← List.append_assoc]
          exact hres.1
        · rw [← List.append_assoc]
          exact hres.2
      · have hnv : ((doMeasurementCalculations s n v).measuredValues name)
            = s.measuredValues name := by
          simp [doMeasurementCalculations, Ne.symm hn]
        have hna : ((doMeasurementCalculations s n v).averageMeasuredValues name)
            = s.averageMeasuredValues name := by
          simp [doMeasurementCalculations, Ne.symm hn]
        have hbeq : (n == name) = false := beq_false_of_ne hn
        simp only [syncedRun, hbeq, Bool.not_false, Bool.true_or, Bool.true_and,
          Bool.false_eq_true, if_false] at hsync
        have hres := ih (doMeasurementCalculations s n v)
          (by rw [hnv]; exact hsync)
          (by rw [hnv, hna]; exact havg)
        simp only [execOps, recordedValues, if_neg hn, List.nil_append]
        rw [hnv] at hres
        exact hres
    | advance f =>
      simp only [syncedRun] at hsync
      have := ih (advanceApplicationId s f)
        (by simpa [advanceApplicationId] using hsync)
        (by simpa [advanceApplicationId] using havg)
      simpa [execOps, recordedValues, advanceApplicationId] using this

theorem execOps_avg_isSome (name : String) :
    ∀ (ops : List ROp) (s : RuleState),
    ((s.averageMeasuredValues name).isSome = true ∨ recordedValues name ops ≠ []) →
    ((execOps s ops).averageMeasuredValues name).isSome = true := by
  intro ops
  induction ops with
  | nil =>
    intro s h
    rcases h with h | h
    · exact h
    · exact absurd rfl h
  | cons op rest ih =>
    intro s h
    cases op with
    | record n v =>
      by_cases hn : n = name
      · subst hn
        refine ih _ (Or.inl ?_)
        simp [doMeasurementCalculations]
      · refine ih _ ?_
        have hmv : ((doMeasurementCalculations s n v).averageMeasuredValues name)
            = s.averageMeasuredValues name := by
          simp [doMeasurementCalculations, Ne.symm hn]
        rw [hmv]
        rcases h with h | h
        · exact Or.inl h
        · refine Or.inr ?_
          simpa [recordedValues, hn] using h
    | advance f =>
      refine ih _ ?_
      rcases h with h | h
      · exact Or.inl (by simpa [advanceApplicationId] using h)
      · exact Or.inr (by simpa [recordedValues] using h)

/-- C3 (amended): the stored average equals the exact arithmetic mean
of the recorded values provided the run is synchronized: whenever a
value is recorded under the name, the application counter equals the
number of values previously recorded under it (as happens when each
application records the name exactly once and then advances). -/
theorem measurement_mean_synced (ops : List ROp) (name firstId : String)
    (hsync : syncedRun name 0 0 ops = true)
    (hne : recordedValues name ops ≠ []) :
    (execOps (freshRuleState firstId) ops).averageMeasuredValues name
      = some ((recordedValues name ops).sum
        / (((recordedValues name ops).length : ℚ))) := by
  have hinv := execOps_measurement_inv name ops (freshRuleState firstId)
    (by simpa [freshRuleState] using hsync)
    (by simp [freshRuleState])
  have hsome := execOps_avg_isSome name ops (freshRuleState firstId) (Or.inr hne)
  obtain ⟨q, hq⟩ := Option.isSome_iff_exists.mp hsome
  rw [hq]
  have h2 := hinv.2
  rw [hq] at h2
  simp only [Option.getD_some, Option.getD_none, freshRuleState,
    List.nil_append] at h2
  rw [h2]

/-- C3 witness: the run record(m, 1); advance; record(m, 3) is
synchronized and yields the exact mean 2. -/
theorem measurement_mean_synced_witness :
    syncedRun "m" 0 0 [ROp.record "m" 1, ROp.advance "b2b2b2b2", ROp.record "m" 3] = true
    ∧ recordedValues "m" [ROp.record "m" 1, ROp.advance "b2b2b2b2", ROp.record "m" 3] ≠ []
    ∧ (execOps (freshRuleState "a1a1a1a1")
        [ROp.record "m" 1, ROp.advance "b2b2b2b2", ROp.record "m" 3]).averageMeasuredValues "m"
      = some 2 := by
  refine ⟨by decide, by simp [recordedValues], ?_⟩
  rw [measurement_mean_synced _ "m" "a1a1a1a1" (by decide) (by simp [recordedValues])]
  congr 1
  simp [recordedValues]
  norm_num

/-- C3 counterexample: two records of the same name inside one
application (no advance in between) do not average to the arithmetic
mean: recording 1 then 3 stores 3, not 2, because the incremental
formula weights the old average by the application counter, which is
still 0. -/
theorem measurement_mean_order_dependent :
    (execOps (freshRuleState "a1a1a1a1")
        [ROp.record "m" 1, ROp.record "m" 3]).averageMeasuredValues "m"
      ≠ some ((1 + 3 : ℚ) / 2) := by
  have hv : (execOps (freshRuleState "a1a1a1a1")
      [ROp.record "m" 1, ROp.record "m" 3]).averageMeasuredValues "m"
      = some 3 := by
    simp [execOps, doMeasurementCalculations, freshRuleState]
  rw [hv]
  intro h
  have := Option.some.inj h
  norm_num at this

theorem string_data_append (s t : String) : (s ++ t).data = s.data ++ t.data := by
  cases s
  cases t
  rfl

theorem append_colon_inj :
    ∀ (a b r₁ r₂ : List Char), (':' : Char) ∉ a → (':' : Char) ∉ b →
      a ++ ':' :: r₁ = b ++ ':' :: r₂ → a = b ∧ r₁ = r₂ := by
  intro a
  induction a with
  | nil =>
    intro b r₁ r₂ _ hb h
    cases b with
    | nil =>
      simp only [List.nil_append, List.cons.injEq] at h
      exact ⟨rfl, h.2⟩
    | cons x xs =>
      simp only [List.nil_append, List.cons_append, List.cons.injEq] at h
      refine absurd ?_ hb
      rw [h.1]
      exact List.mem_cons_self x xs
  | cons y ys ih =>
    intro b r₁ r₂ ha hb h
    cases b with
    | nil =>
      simp only [List.cons_append, List.nil_append, List.cons.injEq] at h
      refine absurd ?_ ha
      rw [← h.1]
      exact List.mem_cons_self y ys
    | cons x xs =>
      simp only [List.cons_append, List.cons.injEq] at h
      obtain ⟨hyx, hrest⟩ := h
      have ha' : (':' : Char) ∉ ys := fun hm => ha (List.mem_cons_of_mem _ hm)
      have hb' : (':' : Char) ∉ xs := fun hm => hb (List.mem_cons_of_mem _ hm)
      obtain ⟨he, hr⟩ := ih xs r₁ r₂ ha' hb' hrest
      exact ⟨by rw [hyx, he], hr⟩

/-- The data of a rule key, decomposed at its first two colons. -/
theorem ruleKey_data (r p : String) (f : Option String) :
    (ruleKey r p f).data
      = ruleAnnotPrefixVal.data
        ++ ':' :: (r.data ++ ':' :: (p.data
          ++ (match f with | some x => ':' :: x.data | none => []))) := by
  cases f with
  | none =>
    simp [ruleKey, string_data_append, ruleAnnotPrefixVal]
  | some x =>
    simp [ruleKey, string_data_append, ruleAnnotPrefixVal]

theorem string_eq_of_data_eq {s t : String} (h : s.data = t.data) : s = t := by
  cases s
  cases t
  exact congrArg String.mk h

theorem ruleKey_ne_of_ruleId_ne (r₁ r₂ p₁ p₂ : String) (f₁ f₂ : Option String)
    (hr₁ : (':' : Char) ∉ r₁.data) (hr₂ : (':' : Char) ∉ r₂.data)
    (hne : r₁ ≠ r₂) : ruleKey r₁ p₁ f₁ ≠ ruleKey r₂ p₂ f₂ := by
  intro h
  have hd := congrArg String.data h
  rw [ruleKey_data, ruleKey_data] at hd
  have h1 := List.append_cancel_left hd
  have h2 := (List.cons.inj h1).2
  have h3 := (append_colon_inj r₁.data r₂.data _ _ hr₁ hr₂ h2).1
  exact hne (string_eq_of_data_eq h3)

theorem ruleKey_ne_of_processId_ne (r p₁ p₂ : String) (f₁ f₂ : Option String)
    (hp₁ : (':' : Char) ∉ p₁.data) (hp₂ : (':' : Char) ∉ p₂.data)
    (hne : p₁ ≠ p₂) : ruleKey r p₁ f₁ ≠ ruleKey r p₂ f₂ := by
  intro h
  have hd := congrArg String.data h
  rw [ruleKey_data, ruleKey_data] at hd
  have h1 := (List.cons.inj (List.append_cancel_left hd)).2
  have h2 := (List.cons.inj (List.append_cancel_left h1)).2
  cases f₁ with
  | none =>
    cases f₂ with
    | none =>
      simp only [List.append_nil] at h2
      exact hne (string_eq_of_data_eq h2)
    | some x =>
      refine absurd ?_ hp₁
      rw [show p₁.data = p₁.data ++ [] from (List.append_nil _).symm, h2]
      exact List.mem_append_right _ (List.mem_cons_self _ _)
  | some x =>
    cases f₂ with
    | none =>
      refine absurd ?_ hp₂
      rw [show p₂.data = p₂.data ++ [] from (List.append_nil _).symm, ← h2]
      exact List.mem_append_right _ (List.mem_cons_self _ _)
    | some y =>
      exact hne (string_eq_of_data_eq
        (append_colon_inj p₁.data p₂.data _ _ hp₁ hp₂ h2).1)

/-- C4 (amended): annotation keys of two rule instances with distinct
rule ids never collide, whatever application ids the two instances
independently drew (rule ids are Python class names, hence colon-free);
and two applications of one rule separated by advance_application_id
carry distinct application-id segments, hence distinct keys, provided
the freshly drawn random token differs from the previous one (the
draws are 4 random bytes, so this holds except on a
2^-32-probability collision, which the code does not preclude). -/
theorem annotation_keys_distinct (r₁ r₂ : String) (s₁ s₂ : RuleState)
    (fresh : String) (f₁ f₂ : Option String)
    (hr₁ : (':' : Char) ∉ r₁.data) (hr₂ : (':' : Char) ∉ r₂.data)
    (hp₁ : (':' : Char) ∉ s₁.processId.data)
    (hp₂ : (':' : Char) ∉ s₂.processId.data)
    (hf : (':' : Char) ∉ fresh.data) :
    (r₁ ≠ r₂ → ruleKey r₁ s₁.processId f₁ ≠ ruleKey r₂ s₂.processId f₂)
    ∧ (fresh ≠ s₁.processId →
        (advanceApplicationId s₁ fresh).processId ≠ s₁.processId
        ∧ ruleKey r₁ (advanceApplicationId s₁ fresh).processId f₂
          ≠ ruleKey r₁ s₁.processId f₁) := by
  refine ⟨fun hne => ruleKey_ne_of_ruleId_ne r₁ r₂ _ _ f₁ f₂ hr₁ hr₂ hne, ?_⟩
  intro hfresh
  refine ⟨hfresh, ?_⟩
  exact ruleKey_ne_of_processId_ne r₁ fresh s₁.processId f₂ f₁ hf hp₁ hfresh

/-- C4 witness: concrete colon-free ids; a RuleDoubleAdpos instance
with application id a1a1a1a1 and a RulePassive instance with the
independently drawn id c3c3c3c3 never collide, and an advance of the
first instance that draws b2b2b2b2 over a1a1a1a1 yields a distinct
key. -/
theorem annotation_keys_distinct_witness :
    (("RuleDoubleAdpos" : String) ≠ "RulePassive" →
      ruleKey "RuleDoubleAdpos" (freshRuleState "a1a1a1a1").processId none
        ≠ ruleKey "RulePassive" (freshRuleState "c3c3c3c3").processId (some "measur:x"))
    ∧ (("b2b2b2b2" : String) ≠ "a1a1a1a1" →
        (advanceApplicationId (freshRuleState "a1a1a1a1") "b2b2b2b2").processId
          ≠ "a1a1a1a1"
        ∧ ruleKey "RuleDoubleAdpos"
            (advanceApplicationId (freshRuleState "a1a1a1a1") "b2b2b2b2").processId
            (some "measur:x")
          ≠ ruleKey "RuleDoubleAdpos" (freshRuleState "a1a1a1a1").processId none) := by
  have h := annotation_keys_distinct "RuleDoubleAdpos" "RulePassive"
    (freshRuleState "a1a1a1a1") (freshRuleState "c3c3c3c3") "b2b2b2b2"
    none (some "measur:x")
    (by decide) (by decide) (by decide) (by decide) (by decide)
  exact ⟨h.1, h.2⟩

/-- C4 counterexample: the fresh application id is a random 4-byte
token with no uniqueness check against the previous one; on the
execution in which os.urandom returns the same bytes again,
advance_application_id leaves the application-id segment unchanged and
the two applications of the rule share their annotation key. -/
theorem application_id_collision :
    (advanceApplicationId (freshRuleState "deadbeef") "deadbeef").processId
      = (freshRuleState "deadbeef").processId
    ∧ ruleKey "RulePassive"
        (advanceApplicationId (freshRuleState "deadbeef") "deadbeef").processId none
      = ruleKey "RulePassive" (freshRuleState "deadbeef").processId none :=
  ⟨rfl, rfl⟩

theorem classTreeListSize_append (a b : List ClassTree) :
    classTreeListSize (a ++ b) = classTreeListSize a + classTreeListSize b := by
  induction a with
  | nil => simp [classTreeListSize]
  | cons t ts ih => simp [classTreeListSize, ih, Nat.add_assoc]

theorem leafClassesList_append (a b : List ClassTree) :
    leafClassesList (a ++ b) = leafClassesList a ++ leafClassesList b := by
  induction a with
  | nil => simp [leafClassesList]
  | cons t ts ih => simp [leafClassesList, ih]

/-- The Documentable work-queue enumeration yields exactly the terminal
classes of the registered forest (as a permutation: the queue emits
them breadth-first, the specification depth-first). -/
theorem getFinalChildrenDoc_perm :
    ∀ l : List ClassTree, (getFinalChildrenDoc l).Perm (leafClassesList l)
  | [] => by
    simp [getFinalChildrenDoc, leafClassesList]
  | .node n cs :: rest => by
    rw [getFinalChildrenDoc]
    by_cases hcs : cs.isEmpty
    · rw [if_pos hcs]
      have hnil : cs = [] := List.isEmpty_iff.mp hcs
      subst hnil
      simpa [leafClassesList, leafClasses]
        using (getFinalChildrenDoc_perm rest).cons (ClassTree.node n [])
    · rw [if_neg hcs]
      refine (getFinalChildrenDoc_perm (rest ++ cs)).trans ?_
      rw [leafClassesList_append]
      refine (List.perm_append_comm).trans ?_
      simp only [leafClassesList, leafClasses, if_neg hcs]
      exact List.Perm.refl _
  termination_by l => classTreeListSize l
  decreasing_by
  · simp only [classTreeListSize, classTreeSize]
    omega
  · simp only [classTreeListSize, classTreeSize, classTreeListSize_append]
    omega

mutual

theorem leafClasses_are_leaves :
    ∀ t : ClassTree, ∀ x ∈ leafClasses t, subclassesOf x = []
  | .node n cs => by
    intro x hx
    rw [leafClasses] at hx
    by_cases hcs : cs.isEmpty
    · rw [if_pos hcs] at hx
      have hnil : cs = [] := List.isEmpty_iff.mp hcs
      subst hnil
      simp at hx
      subst hx
      rfl
    · rw [if_neg hcs] at hx
      exact leafClassesList_are_leaves cs x hx

theorem leafClassesList_are_leaves :
    ∀ l : List ClassTree, ∀ x ∈ leafClassesList l, subclassesOf x = []
  | [] => by intro x hx; simp [leafClassesList] at hx
  | t :: ts => by
    intro x hx
    rw [leafClassesList] at hx
    rcases List.mem_append.mp hx with h | h
    · exact leafClasses_are_leaves t x h
    · exact leafClassesList_are_leaves ts x h
end

mutual

theorem leafClasses_ne_nil : ∀ t : ClassTree, leafClasses t ≠ []
  | .node n cs => by
    rw [leafClasses]
    by_cases hcs : cs.isEmpty
    · rw [if_pos hcs]
      simp
    · rw [if_neg hcs]
      have hne : cs ≠ [] := fun h => hcs (by simp [h])
      cases cs with
      | nil => exact absurd rfl hne
      | cons c cst => exact leafClassesList_ne_nil c cst

theorem leafClassesList_ne_nil : ∀ (c : ClassTree) (ts : List ClassTree),
    leafClassesList (c :: ts) ≠ []
  | c, ts => by
    rw [leafClassesList]
    intro h
    exact leafClasses_ne_nil c (List.append_eq_nil.mp h).1
end

/-- Documentable.get_final_children never returns a class that has
registered subclasses, and it returns the empty list (not an error)
exactly when nothing is registered. -/
theorem getFinalChildrenDoc_no_non_leaf (l : List ClassTree) :
    (∀ x ∈ getFinalChildrenDoc l, subclassesOf x = [])
    ∧ (getFinalChildrenDoc l = [] ↔ l = []) := by
  refine ⟨fun x hx => leafClassesList_are_leaves l x
    ((getFinalChildrenDoc_perm l).mem_iff.mp hx), ?_, ?_⟩
  · intro h
    cases l with
    | nil => rfl
    | cons t ts =>
      have hp := getFinalChildrenDoc_perm (t :: ts)
      rw [h] at hp
      exact absurd hp.symm.eq_nil (leafClassesList_ne_nil t ts)
  · intro h
    subst h
    simp [getFinalChildrenDoc]

/-- C5: StringBuildable.get_final_children violates the contract on a
depth-3 chain Base -> A -> A1 -> A2: removing A during iteration shifts
the list so the loop stops before visiting A1; the result [A1] contains
a class with its own subclass and omits the terminal class A2.  The
Documentable rewrite of the same method returns exactly [A2]. -/
theorem get_final_children_sb_returns_non_leaf :
    getFinalChildrenSB
        [ClassTree.node "A" [ClassTree.node "A1" [ClassTree.node "A2" []]]]
      = [ClassTree.node "A1" [ClassTree.node "A2" []]]
    ∧ subclassesOf (ClassTree.node "A1" [ClassTree.node "A2" []]) ≠ []
    ∧ ClassTree.node "A2" [] ∉ getFinalChildrenSB
        [ClassTree.node "A" [ClassTree.node "A1" [ClassTree.node "A2" []]]]
    ∧ getFinalChildrenDoc
        [ClassTree.node "A" [ClassTree.node "A1" [ClassTree.node "A2" []]]]
      = [ClassTree.node "A2" []] := by
  refine ⟨by decide, by decide, by decide, ?_⟩
  rw [getFinalChildrenDoc]
  norm_num
  rw [getFinalChildrenDoc]
  norm_num
  rw [getFinalChildrenDoc]
  norm_num
  rw [getFinalChildrenDoc]

theorem mem_descendantsSelfList {x : PTree} :
    ∀ {ts : List PTree}, x ∈ descendantsSelfList ts ↔ ∃ t ∈ ts, x ∈ descendantsSelf t := by
  intro ts
  induction ts with
  | nil => simp [descendantsSelfList]
  | cons t ts ih =>
    simp only [descendantsSelfList, List.mem_append, ih, List.mem_cons]
    constructor
    · rintro (h | ⟨u, hu, hx⟩)
      · exact ⟨t, Or.inl rfl, h⟩
      · exact ⟨u, Or.inr hu, hx⟩
    · rintro ⟨u, hu | hu, hx⟩
      · exact Or.inl (hu ▸ hx)
      · exact Or.inr ⟨u, hu, hx⟩

theorem self_mem_descendantsSelf (t : PTree) : t ∈ descendantsSelf t := by
  cases t
  rw [descendantsSelf]
  exact List.mem_cons_self _ _

mutual

theorem size_le_of_mem_descendantsSelf :
    ∀ (t x : PTree), x ∈ descendantsSelf t → ptreeSize x ≤ ptreeSize t
  | .node d cs, x => by
    intro hx
    rw [descendantsSelf] at hx
    rcases List.mem_cons.mp hx with h | h
    · exact le_of_eq (congrArg ptreeSize h)
    · have := size_le_of_mem_descendantsSelfList cs x h
      rw [ptreeSize]
      omega

theorem size_le_of_mem_descendantsMemList :
    ∀ (ts : List PTree) (t : PTree), t ∈ ts → ptreeSize t ≤ ptreeListSize ts
  | [], t => by intro ht; simp at ht
  | t' :: ts, t => by
    intro ht
    rcases List.mem_cons.mp ht with h | h
    · rw [ptreeListSize, h]
      omega
    · have := size_le_of_mem_descendantsMemList ts t h
      rw [ptreeListSize]
      omega

theorem size_le_of_mem_descendantsSelfList :
    ∀ (ts : List PTree) (x : PTree),
      x ∈ descendantsSelfList ts → ptreeSize x ≤ ptreeListSize ts
  | [], x => by intro hx; simp [descendantsSelfList] at hx
  | t :: ts, x => by
    intro hx
    rw [descendantsSelfList] at hx
    rcases List.mem_append.mp hx with h | h
    · have := size_le_of_mem_descendantsSelf t x h
      rw [ptreeListSize]
      omega
    · have := size_le_of_mem_descendantsSelfList ts x h
      rw [ptreeListSize]
      omega
end

/-- A strict member of a subtree is strictly smaller than the root, so
(by the ord-identity convention) it never equals the root. -/
theorem size_lt_of_strict_mem (t x : PTree)
    (hx : x ∈ descendantsSelf t) (hne : x ≠ t) : ptreeSize x < ptreeSize t := by
  cases t with
  | node d cs =>
    rw [descendantsSelf] at hx
    rcases List.mem_cons.mp hx with h | h
    · exact absurd h hne
    · have := size_le_of_mem_descendantsSelfList cs x h
      rw [ptreeSize]
      omega

/-- C6 (amended): with node_is_root=True, get_clause always contains
the root unless without_punctuation=True removes a punctuation root;
without_punctuation removes exactly the punctuation members;
without_subordinates removes exactly the nested clause roots with
their full subtrees; and on the five-node scenario it keeps exactly
the root and its non-clause-root child. -/
theorem clause_extraction_exact (ws wp : Bool) (t x : PTree) :
    t ∈ getClauseFromRoot ws false t
    ∧ ((dataOf t).upos ≠ "PUNCT" → t ∈ getClauseFromRoot ws wp t)
    ∧ getClauseFromRoot ws true t
        = (getClauseFromRoot ws false t).filter
            (fun nd => (dataOf nd).upos ≠ "PUNCT")
    ∧ (x ∈ getClauseFromRoot true false t ↔
        x ∈ descendantsSelf t
        ∧ ¬ ∃ nd, nd ∈ descendantsSelf t ∧ nd ≠ t ∧ isClauseRoot nd = true
            ∧ x ∈ descendantsSelf nd)
    ∧ (∀ anc : List PTree,
        getClause ws wp true t anc = some (getClauseFromRoot ws wp t))
    ∧ getClauseFromRoot true false scenarioRoot = [scenarioRoot, scenarioChild1] := by
  have hunfold : getClauseFromRoot true false t
      = (descendantsSelf t).filter
          (fun nd => nd ∉ ((descendantsSelf t).filter
            (fun nd => nd ≠ t ∧ isClauseRoot nd = true)).flatMap
              descendantsSelf) := rfl
  have hchar : ∀ y : PTree, y ∈ getClauseFromRoot true false t ↔
      y ∈ descendantsSelf t
      ∧ ¬ ∃ nd, nd ∈ descendantsSelf t ∧ nd ≠ t ∧ isClauseRoot nd = true
          ∧ y ∈ descendantsSelf nd := by
    intro y
    rw [hunfold]
    simp only [List.mem_filter, List.mem_flatMap, decide_eq_true_eq]
    constructor
    · rintro ⟨hy, hnr⟩
      refine ⟨hy, ?_⟩
      rintro ⟨nd, hnd, hne, hcr, hmem⟩
      exact hnr ⟨nd, ⟨hnd, hne, hcr⟩, hmem⟩
    · rintro ⟨hy, hnr⟩
      refine ⟨hy, ?_⟩
      rintro ⟨nd, ⟨hnd, hne, hcr⟩, hmem⟩
      exact hnr ⟨nd, hnd, hne, hcr, hmem⟩
  have hroot : ∀ ws' : Bool, t ∈ getClauseFromRoot ws' false t := by
    intro ws'
    cases ws' with
    | false => exact self_mem_descendantsSelf t
    | true =>
      refine (hchar t).mpr ⟨self_mem_descendantsSelf t, ?_⟩
      rintro ⟨nd, hnd, hne, _, hmem⟩
      have h1 := size_lt_of_strict_mem t nd hnd hne
      have h2 := size_le_of_mem_descendantsSelf nd t hmem
      omega
  have hfilter : getClauseFromRoot ws true t
      = (getClauseFromRoot ws false t).filter
          (fun nd => (dataOf nd).upos ≠ "PUNCT") := by
    cases ws <;> rfl
  refine ⟨hroot ws, ?_, hfilter, hchar x, fun anc => rfl, ?_⟩
  · intro hpunct
    cases wp with
    | false => exact hroot ws
    | true =>
      rw [hfilter]
      exact List.mem_filter.mpr ⟨hroot ws, by simpa using hpunct⟩
  · decide

/-- C6 witness: the amended theorem applied to the five-node scenario
(the root is not punctuation, so it is kept under both flags). -/
theorem clause_extraction_exact_witness :
    (dataOf scenarioRoot).upos ≠ "PUNCT"
    ∧ scenarioRoot ∈ getClauseFromRoot true true scenarioRoot
    ∧ getClauseFromRoot true false scenarioRoot = [scenarioRoot, scenarioChild1] := by
  have h := clause_extraction_exact true true scenarioRoot scenarioRoot
  exact ⟨by decide, h.2.1 (by decide), h.2.2.2.2.2⟩

/-- C6 counterexample: with without_punctuation=True the punctuation
filter also removes the clause root itself, so get_clause(n,
node_is_root=True) does not contain n: on a lone-punctuation root the
result is empty. -/
theorem clause_excludes_punct_root :
    getClause false true true punctOnlyRoot [] = some []
    ∧ punctOnlyRoot ∉ getClauseFromRoot false true punctOnlyRoot := by
  decide

/-- C7 (amended): the upward walk returns the first clause root of the
chain node :: ancestors (in particular it stops at the latest at the
technical root only when some node of the chain, that root included,
satisfies is_clause_root); when no node of the chain is a clause root
it walks past the technical root and dereferences a missing parent
(modelled as none). -/
theorem clause_root_walk_finds_first (t : PTree) (anc : List PTree) :
    getClauseRootChain t anc = (t :: anc).find? (fun nd => isClauseRoot nd)
    ∧ ((∃ nd ∈ t :: anc, isClauseRoot nd = true) →
        ∃ r, getClauseRootChain t anc = some r ∧ isClauseRoot r = true) := by
  have hfind : ∀ (anc' : List PTree) (t' : PTree),
      getClauseRootChain t' anc' = (t' :: anc').find? (fun nd => isClauseRoot nd) := by
    intro anc'
    induction anc' with
    | nil =>
      intro t'
      rw [getClauseRootChain]
      by_cases h : isClauseRoot t'
      · rw [if_pos h, List.find?_cons_of_pos _ h]
      · rw [if_neg h, List.find?_cons_of_neg _ (by simpa using h)]
        rfl
    | cons p rest ih =>
      intro t'
      rw [getClauseRootChain]
      by_cases h : isClauseRoot t'
      · rw [if_pos h, List.find?_cons_of_pos _ h]
      · rw [if_neg h, List.find?_cons_of_neg _ (by simpa using h)]
        exact ih p
  refine ⟨hfind anc t, ?_⟩
  intro hex
  have hsome : ((t :: anc).find? (fun nd => isClauseRoot nd)).isSome := by
    rw [List.find?_isSome]
    obtain ⟨nd, hnd, hcr⟩ := hex
    exact ⟨nd, hnd, hcr⟩
  obtain ⟨r, hr⟩ := Option.isSome_iff_exists.mp hsome
  exact ⟨r, (hfind anc t).symm ▸ hr, List.find?_some hr⟩

/-- C7 counterexample: on a verbless sentence no node of the upward
chain (punctuation token, interjection root, technical root) is a
clause root, and get_clause_root steps past the technical root,
dereferencing the missing parent (AttributeError on None in Python)
instead of terminating at the document root. -/
theorem clause_root_walk_runs_past_root :
    getClauseRootChain punctOnlyRoot [intjNode, techRootNode intjNode] = none := by
  rw [getClauseRootChain, if_neg (by decide), getClauseRootChain,
    if_neg (by decide), getClauseRootChain, if_neg (by decide)]

/-- C7 witness: on a chain whose second element is a finite verb the
walk succeeds and returns that first clause root. -/
theorem clause_root_walk_finds_first_witness :
    (∃ nd ∈ punctOnlyRoot :: [scenarioRoot, techRootNode scenarioRoot],
        isClauseRoot nd = true)
    ∧ ∃ r, getClauseRootChain punctOnlyRoot [scenarioRoot, techRootNode scenarioRoot]
        = some r ∧ isClauseRoot r = true := by
  refine ⟨⟨scenarioRoot, by decide, by decide⟩, ?_⟩
  exact (clause_root_walk_finds_first punctOnlyRoot
    [scenarioRoot, techRootNode scenarioRoot]).2 ⟨scenarioRoot, by decide, by decide⟩

theorem sbLoop_length_ge :
    ∀ (fuel i : Nat) (l : List ClassTree), l.length ≤ (sbLoop fuel i l).length := by
  intro fuel
  induction fuel with
  | zero =>
    intro i l
    rw [sbLoop]
  | succ f ih =>
    intro i l
    rw [sbLoop]
    cases hget : l.get? i with
    | none => exact le_refl _
    | some t =>
      dsimp only
      by_cases hleaf : (subclassesOf t).isEmpty
      · rw [if_pos hleaf]
        exact ih (i + 1) l
      · rw [if_neg hleaf]
        refine le_trans ?_ (ih (i + 1) (l.erase t ++ subclassesOf t))
        rw [List.length_append]
        have hmem : t ∈ l := List.get?_mem hget
        rw [List.length_erase_of_mem hmem]
        have hpos : 0 < (subclassesOf t).length := by
          cases hsc : subclassesOf t with
          | nil => rw [hsc] at hleaf; simp at hleaf
          | cons a as => simp
        have hlp : 0 < l.length := List.length_pos_of_mem hmem
        omega

/-- C8 (amended): when no selection is supplied (None, as opposed to
an explicit empty list), both server paths instantiate one default
instance per class enumerated by their Metric base's
get_final_children, apply all of them, and produce a nonempty list
whenever anything is registered.  On the api_helpers path the base is
Documentable, so the instantiated classes are exactly the registered
leaf variants; on the server/__init__.py path the base is
StringBuildable, whose enumeration on nested registries can include a
non-leaf class and omit a terminal one (see the counterexample), so
leaf-exactness holds there only up to that enumeration. -/
theorem default_selection_instantiates_every_leaf
    (registry : List ClassTree) (applyFn : String → ℚ)
    (hreg : registry ≠ []) :
    unwrapMetricList registry none
      = (getFinalChildrenDoc registry).map classNameOf
    ∧ (unwrapMetricList registry none).Perm
        ((leafClassesList registry).map classNameOf)
    ∧ unwrapMetricList registry none ≠ []
    ∧ computeMetricsSrv registry applyFn none
      = ((getFinalChildrenSB registry).map classNameOf).map
          (fun m => (m, applyFn m))
    ∧ computeMetricsSrv registry applyFn (some []) = []
    ∧ computeMetricsSrv registry applyFn none ≠ [] := by
  have hperm : (unwrapMetricList registry none).Perm
      ((leafClassesList registry).map classNameOf) :=
    (getFinalChildrenDoc_perm registry).map classNameOf
  have hleaf : leafClassesList registry ≠ [] := by
    cases registry with
    | nil => exact absurd rfl hreg
    | cons t ts => exact leafClassesList_ne_nil t ts
  have hne : unwrapMetricList registry none ≠ [] := by
    intro h
    rw [h] at hperm
    have := hperm.symm.eq_nil
    exact hleaf (List.map_eq_nil_iff.mp this)
  refine ⟨rfl, hperm, hne, rfl, rfl, ?_⟩
  intro h
  have h0 : getFinalChildrenSB registry = [] :=
    List.map_eq_nil_iff.mp (List.map_eq_nil_iff.mp h)
  have hlen := sbLoop_length_ge (classTreeListSize registry + 1) 0 registry
  rw [show sbLoop (classTreeListSize registry + 1) 0 registry
      = getFinalChildrenSB registry from rfl, h0] at hlen
  simp only [List.length_nil, Nat.le_zero] at hlen
  exact hreg (List.length_eq_zero.mp hlen)

/-- C8 counterexample: on the nested registry Base -> A -> A1 -> A2
the server/__init__.py default path (whose Metric/Rule resolve to the
StringBuildable classes) instantiates the non-leaf class A1 and omits
the terminal class A2, so the instance list is not one-per-leaf. -/
theorem server_default_selection_includes_non_leaf :
    computeMetricsSrv
        [ClassTree.node "A" [ClassTree.node "A1" [ClassTree.node "A2" []]]]
        (fun _ => 0) none
      = [("A1", 0)]
    ∧ subclassesOf (ClassTree.node "A1" [ClassTree.node "A2" []]) ≠ []
    ∧ "A2" ∉ (computeMetricsSrv
        [ClassTree.node "A" [ClassTree.node "A1" [ClassTree.node "A2" []]]]
        (fun _ => 0) none).map (fun p => p.1) := by
  have hsb : getFinalChildrenSB
      [ClassTree.node "A" [ClassTree.node "A1" [ClassTree.node "A2" []]]]
      = [ClassTree.node "A1" [ClassTree.node "A2" []]] := by decide
  have h1 : computeMetricsSrv
      [ClassTree.node "A" [ClassTree.node "A1" [ClassTree.node "A2" []]]]
      (fun _ => 0) none = [("A1", (0 : ℚ))] := by
    show ((getFinalChildrenSB
        [ClassTree.node "A" [ClassTree.node "A1" [ClassTree.node "A2" []]]]).map
          classNameOf).map (fun m => (m, (0 : ℚ))) = [("A1", (0 : ℚ))]
    rw [hsb]
    simp [classNameOf]
  refine ⟨h1, by decide, ?_⟩
  rw [h1]
  simp

/-- C8 witness: a two-level registry (an abstract intermediate class
with two terminal variants plus one directly terminal variant) makes
the api_helpers path produce exactly the three default leaf
instances, and the server/__init__.py instance list is nonempty. -/
theorem default_selection_instantiates_every_leaf_witness :
    ([ClassTree.node "MetricPunctExcluding"
        [ClassTree.node "MetricWordCount" [], ClassTree.node "MetricTTR" []],
      ClassTree.node "MetricSentenceCount" []] : List ClassTree) ≠ []
    ∧ unwrapMetricList
        [ClassTree.node "MetricPunctExcluding"
          [ClassTree.node "MetricWordCount" [], ClassTree.node "MetricTTR" []],
         ClassTree.node "MetricSentenceCount" []] none
      = ["MetricSentenceCount", "MetricWordCount", "MetricTTR"]
    ∧ computeMetricsSrv
        [ClassTree.node "MetricPunctExcluding"
          [ClassTree.node "MetricWordCount" [], ClassTree.node "MetricTTR" []],
         ClassTree.node "MetricSentenceCount" []] (fun _ => 0) none ≠ [] := by
  refine ⟨by decide, ?_, ?_⟩
  · rw [unwrapMetricList]
    rw [getFinalChildrenDoc]
    norm_num
    rw [getFinalChildrenDoc]
    norm_num
    rw [getFinalChildrenDoc]
    norm_num
    rw [getFinalChildrenDoc]
    norm_num
    rw [getFinalChildrenDoc]
    simp [classNameOf]
  · exact (default_selection_instantiates_every_leaf _ (fun _ => 0)
      (by decide)).2.2.2.2.2

theorem pyDiv_eq_none (a b : ℚ) : pyDiv a b = none ↔ b = 0 := by
  rw [pyDiv]
  split <;> simp_all

/-- C9 (amended): RuleTooFewVerbs guards its division - the empty
clause is rejected before dividing by its size, so no division by zero
is reachable in the rule; MetricCLI.apply however divides by the word
count unguarded, and dies with ZeroDivisionError exactly on documents
whose filtered word count is zero. -/
theorem division_guard_status :
    (∀ (cfg : TooFewVerbsCfg) (t : PTree), ruleTooFewVerbsApply cfg t ≠ none)
    ∧ (∀ (cfg : CLICfg) (doc : PDoc),
        metricCLIApply cfg doc = none
          ↔ metricWordCount cfg.filterPunct doc = 0) := by
  constructor
  · intro cfg t
    rw [ruleTooFewVerbsApply]
    split
    · dsimp only
      split
      · simp
      · next hemp =>
        split
        · next heq =>
          rw [pyDiv_eq_none] at heq
          have hlen : (getClauseFromRoot false true t).length = 0 := by
            exact_mod_cast heq
          rw [List.length_eq_zero] at hlen
          rw [hlen] at hemp
          simp at hemp
        · split <;> simp
    · simp
  · intro cfg doc
    by_cases hw : metricWordCount cfg.filterPunct doc = 0
    · simp [metricCLIApply, pyDiv, hw]
    · have hq : ((metricWordCount cfg.filterPunct doc : ℚ)) ≠ 0 := by
        exact_mod_cast hw
      simp [metricCLIApply, pyDiv, hq, hw]

/-- C9 witness: the guard fires on the lone-punctuation sentence (the
pruned clause is empty, the rule returns without dividing), and a
one-word document makes MetricCLI's divisions well-defined. -/
theorem division_guard_status_witness :
    ruleTooFewVerbsApply {} punctOnlyRoot ≠ none
    ∧ (metricCLIApply {} [[sampleNode 1 "abc"]] = none
        ↔ metricWordCount true [[sampleNode 1 "abc"]] = 0) :=
  ⟨division_guard_status.1 {} punctOnlyRoot,
   division_guard_status.2 {} [[sampleNode 1 "abc"]]⟩

/-- C9 counterexample: MetricCLI.apply on the empty document reaches
its unguarded divisions by the word count (chars/words with words = 0)
and dies with ZeroDivisionError instead of producing a defined
result. -/
theorem cli_divides_by_zero_on_empty_doc :
    metricCLIApply {} ([] : PDoc) = none := by
  simp [metricCLIApply, pyDiv, metricWordCount, getApplicableNodes, docNodes,
    filterNodesOnPunct, negativeFilterNodesOnUpos, filterNodesOnUpos,
    metricSentCount, metricCharCount]

mutual

theorem eraseMisc_annotateByOrd (key val : String) (ords : List Nat) :
    ∀ t : PTree, eraseMisc (annotateByOrd key val ords t) = eraseMisc t
  | .node d cs => by
    rw [annotateByOrd, eraseMisc, eraseMisc]
    by_cases h : ords.contains d.ord
    · rw [if_pos h]
      exact congrArg _ (eraseMiscList_annotateByOrdList key val ords cs)
    · rw [if_neg h]
      exact congrArg _ (eraseMiscList_annotateByOrdList key val ords cs)

theorem eraseMiscList_annotateByOrdList (key val : String) (ords : List Nat) :
    ∀ ts : List PTree,
      eraseMiscList (annotateByOrdList key val ords ts) = eraseMiscList ts
  | [] => rfl
  | t :: ts => by
    rw [annotateByOrdList, eraseMiscList, eraseMiscList]
    rw [eraseMisc_annotateByOrd key val ords t]
    rw [eraseMiscList_annotateByOrdList key val ords ts]
end

theorem daCandidate_preserves_eraseMisc (cfg : DoubleAdposCfg)
    (el2 el1 pa : PTree) (st : PTree × RuleState × List String) :
    eraseMisc (daCandidate cfg el2 el1 pa st).1 = eraseMisc st.1 := by
  rw [daCandidate]
  split
  · rfl
  · split
    · rfl
    · split
      · rfl
      · dsimp only
        split
        · simp only [eraseMisc_annotateByOrd]
        · simp only [eraseMisc_annotateByOrd]

theorem foldl_daCandidate_preserves_eraseMisc (cfg : DoubleAdposCfg)
    (el2 el1 : PTree) :
    ∀ (cands : List PTree) (st : PTree × RuleState × List String),
    eraseMisc ((cands.foldl (fun st pa => daCandidate cfg el2 el1 pa st) st)).1
      = eraseMisc st.1 := by
  intro cands
  induction cands with
  | nil => intro st; rfl
  | cons pa rest ih =>
    intro st
    rw [List.foldl_cons]
    rw [ih (daCandidate cfg el2 el1 pa st)]
    exact daCandidate_preserves_eraseMisc cfg el2 el1 pa st

/-- C10: a detect_only rule changes nothing but misc entries: the
generic annotate_node write (annotateByOrd) leaves the misc-erased
document untouched, and the full detect_only=True
RuleDoubleAdpos.process_node run (annotations of cconj, measured and
parameter values, orig_adpos and both coordination elements, plus the
application-id advance) preserves every node's form, lemma, tags,
features, dependency relation, position and the whole tree shape:
erasing misc afterwards gives back the misc-erased input document. -/
theorem detect_only_changes_only_misc (key val : String) (ords : List Nat)
    (cfg : DoubleAdposCfg) (doc nd : PTree) (rs : RuleState)
    (ids : List String) :
    eraseMisc (annotateByOrd key val ords doc) = eraseMisc doc
    ∧ eraseMisc (daProcessNode cfg doc nd rs ids).1 = eraseMisc doc := by
  refine ⟨eraseMisc_annotateByOrd key val ords doc, ?_⟩
  rw [daProcessNode]
  split
  · rfl
  · split
    · rfl
    · split
      · rfl
      · exact foldl_daCandidate_preserves_eraseMisc cfg nd _ _ _
